import Mathlib

/-!
Verification of the `trie` library (`src/include/trie/trie.hpp`): a prefix
tree over 8-bit code units with insertion, exact membership, prefix
autocomplete (`suggest`) and ranked fuzzy search (`search_ranked`).

Modelling choices:
* A code unit (`char`) is a `Nat`; a word (`std::string`) is a `List Nat`.
  The code only compares units for equality and compares words
  byte-lexicographically, so no arithmetic on units is needed.
* `TrieNode.children` (`std::unordered_map<char, std::unique_ptr<TrieNode>>`)
  is an association list.  The C++ container's iteration order is
  unspecified; the list fixes one concrete realization of it: a key absent
  from the map (`children[c]` on a miss) is appended at the end, so the
  list order is first-insertion order.  Key lookup (`find`, `operator[]`)
  is position-independent, so every result that does not depend on
  iteration order is faithful to every realization.
* `double` arithmetic in `score_word` is modelled exactly over `ℚ`
  (0.02 = 2/100, 0.05 = 5/100).
* `std::sort` with the strict comparator of `search_ranked` is modelled by
  `List.mergeSort` with the reflexive closure of that comparator; the
  comparator is a strict total order on the collected entries (their words
  are pairwise distinct), so every conforming `std::sort` produces this
  same unique output.
-/

namespace TrieSpec

/-- A code unit: one byte of the input sequence. -/
abbrev Unit8 := Nat

/-- A word: a sequence of code units (`std::string`). -/
abbrev Word := List Nat

/-- `struct TrieNode`: children keyed by a code unit, plus the terminal
flag and the occurrence counter.  (`trie.hpp` lines 28–33.) -/
inductive TrieNode : Type where
  | mk : List (Nat × TrieNode) → Bool → Nat → TrieNode
deriving Repr

/-- `TrieNode.children` projection. -/
def TrieNode.children : TrieNode → List (Nat × TrieNode)
  | .mk ch _ _ => ch

/-- `TrieNode.is_terminal` projection. -/
def TrieNode.is_terminal : TrieNode → Bool
  | .mk _ b _ => b

/-- `TrieNode.frequency` projection. -/
def TrieNode.frequency : TrieNode → Nat
  | .mk _ _ f => f

/-- A default-constructed node: no children, not terminal, frequency 0. -/
def emptyNode : TrieNode := .mk [] false 0

/-- `children.find(c)`: the child reached by code unit `c`, if the edge
exists (first matching key of the association list). -/
def findChild : List (Nat × TrieNode) → Nat → Option TrieNode
  | [], _ => none
  | (k, t) :: tl, c => if k = c then some t else findChild tl c

mutual
/-- `Trie::insert` (`trie.hpp` lines 65–82): walk `word` from the root,
creating missing edges (`children[c]` default-constructs on a miss), then
set `is_terminal` and increment `frequency` at the final node.  The
field is `std::uint32_t`, so `frequency += 1` wraps modulo `2 ^ 32`. -/
def insert : TrieNode → Word → TrieNode
  | .mk ch _ f, [] => .mk ch true ((f + 1) % 2 ^ 32)
  | .mk ch b f, c :: rest => .mk (insertChild ch c rest) b f

/-- Helper for `insert`: `children[c]` followed by the recursive walk.  A
present key keeps its position; an absent key is appended at the end (one
realization of the unordered container). -/
def insertChild : List (Nat × TrieNode) → Nat → Word → List (Nat × TrieNode)
  | [], c, rest => [(c, insert emptyNode rest)]
  | (k, t) :: tl, c, rest =>
      if k = c then (k, insert t rest) :: tl
      else (k, t) :: insertChild tl c rest
end

/-- `Trie::contains` (`trie.hpp` lines 89–104): follow the path of `word`;
a missing edge returns `false`, otherwise the final node's flag. -/
def contains : TrieNode → Word → Bool
  | n, [] => n.is_terminal
  | n, c :: rest =>
      match findChild n.children c with
      | none => false
      | some m => contains m rest

/-- The node reached from `n` by following the code-unit path `w`
(the shared walk of `contains`, `suggest` and the spec's path notion). -/
def pathNode : TrieNode → Word → Option TrieNode
  | n, [] => some n
  | n, c :: rest =>
      match findChild n.children c with
      | none => none
      | some m => pathNode m rest

mutual
/-- `Trie::collect_suggestions` (`trie.hpp` lines 202–228): depth-first
collection of terminal words below `node`, appending to `out`, stopping as
soon as `out` holds `limit` words (`limit = 0` means unlimited). -/
def collect_suggestions : TrieNode → Word → List Word → Nat → List Word
  | .mk ch term _, cur, out, limit =>
      let out1 := if term then out ++ [cur] else out
      if term && (limit != 0 && limit ≤ out1.length) then out1
      else collectChildren ch cur out1 limit

/-- The `for (kv : node->children)` loop of `collect_suggestions`. -/
def collectChildren : List (Nat × TrieNode) → Word → List Word → Nat → List Word
  | [], _, out, _ => out
  | (k, child) :: tl, cur, out, limit =>
      let out1 := collect_suggestions child (cur ++ [k]) out limit
      if limit != 0 && limit ≤ out1.length then out1
      else collectChildren tl cur out1 limit
end

/-- `Trie::suggest` (`trie.hpp` lines 111–130): resolve the node reached by
the prefix (empty sequence resolves to the root); a missing path yields
`[]`, otherwise collect up to `limit` words below it. -/
def suggest (t : TrieNode) (pre : Word) (limit : Nat) : List Word :=
  match pathNode t pre with
  | none => []
  | some n => collect_suggestions n pre [] limit

/-- A trie built by inserting the words of `ws` in order into an empty
trie (`Trie::Trie` then `insert` per word): exactly the reachable states
of the data structure. -/
def buildTrie (ws : List Word) : TrieNode := ws.foldl insert emptyNode

/-- The inner `for j` loop of `Trie::levenshtein_distance`
(`trie.hpp` lines 244–254): given `a[i-1]`, the remaining units of `b`,
the tail of the previous row starting at `prev[j-1]`, and `cur[j-1]`,
produce `cur[j], …, cur[n]`. -/
def levRowAux (ai : Nat) : List Nat → List Nat → Nat → List Nat
  | bj :: bs, pjm1 :: pj :: ps, curPrev =>
      let cost := if ai = bj then 0 else 1
      let c := min (pj + 1) (min (curPrev + 1) (pjm1 + cost))
      c :: levRowAux ai bs (pj :: ps) c
  | _, _, _ => []

/-- One full row `i` of the DP: `cur[0] = i` followed by the inner loop. -/
def levRow (ai i : Nat) (b prev : List Nat) : List Nat :=
  i :: levRowAux ai b prev i

/-- The outer `for i` loop of `Trie::levenshtein_distance`: fold the rows
over the units of `a`, carrying the previous row. -/
def levRows : List Nat → List Nat → List Nat → Nat → List Nat
  | [], _, prev, _ => prev
  | ai :: arest, b, prev, i => levRows arest b (levRow ai (i + 1) b prev) (i + 1)

/-- `Trie::levenshtein_distance` (`trie.hpp` lines 230–260): early returns
for an empty side, otherwise the two-row DP; the result is `prev[n]`. -/
def levenshtein_distance (a b : List Nat) : Nat :=
  if a.length = 0 then b.length
  else if b.length = 0 then a.length
  else (levRows a b (List.range (b.length + 1)) 0).getD b.length 0

/-- `Trie::score_word` (`trie.hpp` lines 262–271), with the `double`
arithmetic carried out exactly over `ℚ` (`0.02 = 2/100`, `0.05 = 5/100`):
`sim + len_bonus + freq_bonus`. -/
def score_word (q w : Word) (f : Nat) : ℚ :=
  1 / (1 + (levenshtein_distance q w : ℚ))
    + (w.length : ℚ) * (2 / 100) + (f : ℚ) * (5 / 100)

mutual
/-- `Trie::collect_scored` (`trie.hpp` lines 273–291): depth-first
collection of every terminal word with its score against `q`. -/
def collect_scored : TrieNode → Word → List (Word × ℚ) → Word → List (Word × ℚ)
  | .mk ch term f, cur, out, q =>
      let out1 := if term then out ++ [(cur, score_word q cur f)] else out
      scoredChildren ch cur out1 q

/-- The `for (kv : node->children)` loop of `collect_scored`. -/
def scoredChildren : List (Nat × TrieNode) → Word → List (Word × ℚ) → Word → List (Word × ℚ)
  | [], _, out, _ => out
  | (k, child) :: tl, cur, out, q =>
      scoredChildren tl cur (collect_scored child (cur ++ [k]) out q) q
end

/-- `std::string` `operator<`: byte-wise lexicographic order
(`char_traits<char>` compares as unsigned bytes). -/
def wordLt : Word → Word → Bool
  | [], [] => false
  | [], _ :: _ => true
  | _ :: _, [] => false
  | c :: a, d :: b => if c < d then true else if d < c then false else wordLt a b

/-- The strict comparator passed to `std::sort` in `Trie::search_ranked`
(`trie.hpp` lines 147–150): descending score, ties by ascending word. -/
def scoredBefore (a b : Word × ℚ) : Bool :=
  if a.2 = b.2 then wordLt a.1 b.1 else decide (b.2 < a.2)

/-- The non-strict order induced by `scoredBefore`, used to run
`List.mergeSort` as the model of `std::sort` (see the header comment). -/
def scoredLe (a b : Word × ℚ) : Bool := !(scoredBefore b a)

/-- `Trie::search_ranked` (`trie.hpp` lines 141–164): collect every
terminal word with its score, sort by the comparator, and keep the first
`min(limit, size)` words (`limit = 0` keeps all). -/
def search_ranked (t : TrieNode) (q : Word) (limit : Nat) : List Word :=
  let scored := collect_scored t [] [] q
  let sorted := scored.mergeSort scoredLe
  let tk := if limit = 0 then sorted.length else min limit sorted.length
  (sorted.take tk).map Prod.fst

/-- The frequency counter stored at the node of `w` (0 if the path is
absent): the value `collect_scored` reads at a terminal node. -/
def wordFreq (t : TrieNode) (w : Word) : Nat :=
  match pathNode t w with
  | some n => n.frequency
  | none => 0

mutual
/-- Specification-side enumeration: all terminal words in the subtree at
`n`, prefixed by `cur`, in depth-first order — `collect_suggestions`
without a limit and without an accumulator. -/
def wordsBelow : TrieNode → Word → List Word
  | .mk ch term _, cur => (if term then [cur] else []) ++ wordsBelowChildren ch cur

/-- Child loop of `wordsBelow`. -/
def wordsBelowChildren : List (Nat × TrieNode) → Word → List Word
  | [], _ => []
  | (k, c) :: tl, cur => wordsBelow c (cur ++ [k]) ++ wordsBelowChildren tl cur
end

/-- Pairwise distinctness of edge keys, as a boolean. -/
def keysDistinct : List Nat → Bool
  | [] => true
  | k :: tl => !(tl.any (fun x => x = k)) && keysDistinct tl

mutual
/-- Well-formedness: at every node the edge keys are pairwise distinct —
the `unordered_map` key-uniqueness invariant. -/
def wfNode : TrieNode → Bool
  | .mk ch _ _ => keysDistinct (ch.map Prod.fst) && wfChildren ch

/-- Child loop of `wfNode`. -/
def wfChildren : List (Nat × TrieNode) → Bool
  | [] => true
  | (_, c) :: tl => wfNode c && wfChildren tl
end

mutual
/-- The node skeleton: children structure with `is_terminal` and
`frequency` erased — what the spec calls the "node structure". -/
def structureOf : TrieNode → TrieNode
  | .mk ch _ _ => .mk (structureOfChildren ch) false 0

/-- Child loop of `structureOf`. -/
def structureOfChildren : List (Nat × TrieNode) → List (Nat × TrieNode)
  | [] => []
  | (k, c) :: tl => (k, structureOf c) :: structureOfChildren tl
end

/-- The reachable-state invariant of the occurrence counter: a node with
`frequency ≥ 1` has its terminal flag set. -/
def freqInv (t : TrieNode) : Prop :=
  ∀ v n, pathNode t v = some n → 1 ≤ n.frequency → n.is_terminal = true

mutual
/-- Specification-side enumeration of `collect_scored`: every terminal
word below `n` with its score, in depth-first order, without the
accumulator. -/
def scoredBelow : TrieNode → Word → Word → List (Word × ℚ)
  | .mk ch term f, cur, q =>
      (if term then [(cur, score_word q cur f)] else []) ++ scoredBelowChildren ch cur q

/-- Child loop of `scoredBelow`. -/
def scoredBelowChildren : List (Nat × TrieNode) → Word → Word → List (Word × ℚ)
  | [], _, _ => []
  | (k, c) :: tl, cur, q => scoredBelow c (cur ++ [k]) q ++ scoredBelowChildren tl cur q
end

/-- The textbook prefix recurrence: `levT a b i j` is the edit distance
between the first `i` units of `a` and the first `j` units of `b`, with
exactly the three-way `min` and cost of the DP cell update. -/
def levT (a b : Word) : Nat → Nat → Nat
  | 0, j => j
  | i + 1, 0 => i + 1
  | i + 1, j + 1 =>
      let cost := if a.getD i 0 = b.getD j 0 then 0 else 1
      min (levT a b i (j + 1) + 1)
        (min (levT a b (i + 1) j + 1) (levT a b i j + cost))
  termination_by i j => (i, j)

/-- One public API call (`§6` of the spec): the four operations. -/
inductive Op : Type where
  | insertOp (w : Word)
  | containsOp (w : Word)
  | suggestOp (pre : Word) (limit : Nat)
  | searchOp (q : Word) (limit : Nat)

/-- The value returned by one API call. -/
inductive OpResult : Type where
  | unitR
  | boolR (b : Bool)
  | listR (l : List Word)
deriving DecidableEq

/-- `class Trie` (`trie.hpp` lines 47–59, 293–296): the owned root, the
`thread_safe_` flag fixed at construction, and the mutex (modelled by
whether it is currently held). -/
structure Trie : Type where
  root : TrieNode
  thread_safe : Bool
  locked : Bool

/-- A freshly constructed `Trie(thread_safe)`: empty root, mutex free. -/
def mkTrie (ts : Bool) : Trie := ⟨emptyNode, ts, false⟩

/-- One API call under the sequential semantics: `LockGuard` acquires the
mutex when `thread_safe_` is set, the body runs (only `insert` writes
through `root_`; the three queries are `const`), and the guard's
destructor releases the mutex on every exit path. -/
def runOp (tr : Trie) (op : Op) : OpResult × Trie :=
  let acq : Trie := if tr.thread_safe then { tr with locked := true } else tr
  let rel : Trie → Trie := fun s => if s.thread_safe then { s with locked := false } else s
  match op with
  | .insertOp w => (.unitR, rel { acq with root := insert acq.root w })
  | .containsOp w => (.boolR (contains acq.root w), rel acq)
  | .suggestOp pre limit => (.listR (suggest acq.root pre limit), rel acq)
  | .searchOp q limit => (.listR (search_ranked acq.root q limit), rel acq)

/-- A sequence of API calls executed one at a time. -/
def runOps : Trie → List Op → List OpResult × Trie
  | tr, [] => ([], tr)
  | tr, op :: ops =>
      let step := runOp tr op
      let rest := runOps step.2 ops
      (step.1 :: rest.1, rest.2)

/-! ### Basic lemmas: `insert`, `findChild`, `contains` -/

theorem findChild_insertChild_eq (ch : List (Nat × TrieNode)) (c : Nat) (rest : Word) :
    findChild (insertChild ch c rest) c =
      some (insert ((findChild ch c).getD emptyNode) rest) := by
  induction ch with
  | nil => simp [insertChild, findChild]
  | cons p tl ih =>
      obtain ⟨k, t⟩ := p
      by_cases hk : k = c
      · subst hk; simp [insertChild, findChild]
      · simp [insertChild, findChild, hk, ih]

theorem findChild_insertChild_ne (ch : List (Nat × TrieNode)) (c d : Nat) (rest : Word)
    (h : d ≠ c) : findChild (insertChild ch c rest) d = findChild ch d := by
  induction ch with
  | nil => simp [insertChild, findChild, Ne.symm h]
  | cons p tl ih =>
      obtain ⟨k, t⟩ := p
      by_cases hk : k = c
      · subst hk
        simp [insertChild, findChild, Ne.symm h]
      · simp only [insertChild, if_neg hk, findChild]
        by_cases hkd : k = d <;> simp [hkd, ih]

theorem contains_emptyNode (v : Word) : contains emptyNode v = false := by
  cases v <;> simp [contains, emptyNode, TrieNode.is_terminal, TrieNode.children, findChild]

theorem contains_insert (w : Word) :
    ∀ t v, contains (insert t w) v = (decide (v = w) || contains t v) := by
  induction w with
  | nil =>
      intro t v
      cases t with | mk ch b f =>
      cases v with
      | nil => simp [insert, contains, TrieNode.is_terminal]
      | cons d vr => simp [insert, contains, TrieNode.children]
  | cons c wr ih =>
      intro t v
      cases t with | mk ch b f =>
      cases v with
      | nil => simp [insert, contains, TrieNode.is_terminal]
      | cons d vr =>
          by_cases hdc : d = c
          · subst hdc
            simp only [insert, contains, TrieNode.children,
              findChild_insertChild_eq]
            cases hfc : findChild ch d with
            | none =>
                simp [hfc, ih, contains_emptyNode, List.cons.injEq, true_and]
            | some m =>
                simp [hfc, ih, List.cons.injEq, true_and]
          · simp only [insert, contains, TrieNode.children,
              findChild_insertChild_ne ch c d wr hdc]
            have : (d :: vr = c :: wr) = False := by
              simp [List.cons.injEq, hdc]
            simp [this]

theorem contains_foldl (ws : List Word) :
    ∀ t v, contains (List.foldl insert t ws) v = (decide (v ∈ ws) || contains t v) := by
  induction ws with
  | nil => intro t v; simp
  | cons w tl ih =>
      intro t v
      simp only [List.foldl_cons, ih, contains_insert]
      by_cases h2 : v = w <;> by_cases h1 : v ∈ tl <;> simp [h1, h2]

theorem contains_buildTrie (ws : List Word) (v : Word) :
    contains (buildTrie ws) v = decide (v ∈ ws) := by
  simp [buildTrie, contains_foldl, contains_emptyNode]

/-! ### Levenshtein distance: DP rows versus the prefix recurrence -/

theorem levT_zero_left (a b : Word) (j : Nat) : levT a b 0 j = j := by
  cases j <;> simp [levT]

theorem levT_zero_right (a b : Word) (i : Nat) : levT a b i 0 = i := by
  cases i <;> simp [levT]

theorem levRowAux_spec (a b : Word) (i : Nat) :
    ∀ k j, j + k = b.length →
      levRowAux (a.getD i 0) (b.drop j)
        ((List.range' j (b.length + 1 - j)).map (levT a b i)) (levT a b (i + 1) j)
      = (List.range' (j + 1) k).map (levT a b (i + 1)) := by
  intro k
  induction k with
  | zero =>
      intro j hj
      have hd : b.drop j = [] := by
        rw [List.drop_eq_nil_iff]
        omega
      rw [hd]
      simp [levRowAux]
  | succ k ih =>
      intro j hj
      have hjn : j < b.length := by omega
      rw [List.drop_eq_getElem_cons hjn]
      have hlen : b.length + 1 - j = (b.length - j) + 1 := by omega
      have hlen2 : b.length - j = k + 1 := by omega
      rw [hlen, hlen2, List.range'_succ, List.range'_succ, List.map_cons, List.map_cons]
      show levRowAux (a.getD i 0) (b[j] :: b.drop (j + 1))
          (levT a b i j :: levT a b i (j + 1) ::
            (List.range' (j + 1 + 1) k).map (levT a b i)) (levT a b (i + 1) j)
        = (List.range' (j + 1) (k + 1)).map (levT a b (i + 1))
      rw [levRowAux]
      have hcell :
          min (levT a b i (j + 1) + 1)
            (min (levT a b (i + 1) j + 1)
              (levT a b i j + if a.getD i 0 = b[j] then 0 else 1))
          = levT a b (i + 1) (j + 1) := by
        rw [levT]
        have : b[j] = b.getD j 0 := (List.getD_eq_getElem b 0 hjn).symm
        rw [this]
      have hrec : levT a b i (j + 1) :: (List.range' (j + 1 + 1) k).map (levT a b i)
          = (List.range' (j + 1) (b.length + 1 - (j + 1))).map (levT a b i) := by
        have : b.length + 1 - (j + 1) = k + 1 := by omega
        rw [this, List.range'_succ, List.map_cons]
      simp only [hcell]
      rw [hrec, ih (j + 1) (by omega), List.range'_succ, List.map_cons]

theorem levRows_spec (a b : Word) :
    ∀ arest i, arest = a.drop i → i ≤ a.length →
      levRows arest b ((List.range' 0 (b.length + 1)).map (levT a b i)) i
        = (List.range' 0 (b.length + 1)).map (levT a b a.length) := by
  intro arest
  induction arest with
  | nil =>
      intro i hdrop hle
      have : i = a.length := by
        have := congrArg List.length hdrop
        simp at this
        omega
      rw [levRows, this]
  | cons ai arest' ih =>
      intro i hdrop hle
      have hlt : i < a.length := by
        have := congrArg List.length hdrop
        simp at this
        omega
      have hai : ai = a.getD i 0 := by
        rw [List.getD_eq_getElem a 0 hlt]
        have := List.drop_eq_getElem_cons hlt
        rw [this] at hdrop
        exact (List.cons.injEq ..).mp hdrop.symm |>.1.symm
      have hrow : levRow ai (i + 1) b ((List.range' 0 (b.length + 1)).map (levT a b i))
          = (List.range' 0 (b.length + 1)).map (levT a b (i + 1)) := by
        rw [levRow, hai]
        have h0 : (List.range' 0 (b.length + 1)).map (levT a b i)
            = (List.range' 0 (b.length + 1 - 0)).map (levT a b i) := by norm_num
        rw [h0]
        have := levRowAux_spec a b i b.length 0 (by omega)
        rw [List.drop_zero] at this
        rw [show levT a b (i + 1) 0 = i + 1 from levT_zero_right a b (i + 1)] at this
        rw [this, List.range'_succ, List.map_cons, levT_zero_right]
      rw [levRows, hrow]
      apply ih (i + 1)
      · have := List.drop_eq_getElem_cons hlt
        rw [this] at hdrop
        exact ((List.cons.injEq ..).mp hdrop.symm).2.symm
      · omega

theorem levenshtein_eq_levT (a b : Word) :
    levenshtein_distance a b = levT a b a.length b.length := by
  unfold levenshtein_distance
  by_cases ha : a.length = 0
  · simp [ha, levT_zero_left]
  · by_cases hb : b.length = 0
    · rw [if_neg ha, if_pos hb, hb, levT_zero_right]
    · rw [if_neg ha, if_neg hb]
      have h0 : List.range (b.length + 1) = (List.range' 0 (b.length + 1)).map (levT a b 0) := by
        rw [List.range_eq_range']
        apply List.ext_getElem
        · simp
        · intro n h1 h2
          simp [levT_zero_left]
      rw [h0, levRows_spec a b a 0 (by simp) (by omega)]
      have hn : b.length < ((List.range' 0 (b.length + 1)).map (levT a b a.length)).length := by
        simp
      rw [List.getD_eq_getElem _ _ hn, List.getElem_map, List.getElem_range']
      norm_num

theorem levT_self (a : Word) : ∀ i, levT a a i i = 0 := by
  intro i
  induction i with
  | zero => rw [levT_zero_left]
  | succ i ih =>
      rw [levT]
      simp [ih]

theorem levT_symm (a b : Word) : ∀ n i j, i + j ≤ n → levT a b i j = levT b a j i := by
  intro n
  induction n with
  | zero =>
      intro i j h
      have : i = 0 ∧ j = 0 := by omega
      rw [this.1, this.2, levT_zero_left, levT_zero_left]
  | succ n ih =>
      intro i j h
      match i, j with
      | 0, j => rw [levT_zero_left, levT_zero_right]
      | i + 1, 0 => rw [levT_zero_left, levT_zero_right]
      | i + 1, j + 1 =>
          rw [levT, levT]
          have h1 : levT a b i (j + 1) = levT b a (j + 1) i := ih i (j + 1) (by omega)
          have h2 : levT a b (i + 1) j = levT b a j (i + 1) := ih (i + 1) j (by omega)
          have h3 : levT a b i j = levT b a j i := ih i j (by omega)
          have hc : (if a.getD i 0 = b.getD j 0 then 0 else 1)
              = (if b.getD j 0 = a.getD i 0 then 0 else 1) := by
            by_cases hh : a.getD i 0 = b.getD j 0
            · rw [if_pos hh, if_pos hh.symm]
            · rw [if_neg hh, if_neg (Ne.symm hh)]
          rw [h1, h2, h3, hc]
          omega

theorem levenshtein_self (x : Word) : levenshtein_distance x x = 0 := by
  rw [levenshtein_eq_levT, levT_self]

theorem levenshtein_comm (x y : Word) :
    levenshtein_distance x y = levenshtein_distance y x := by
  rw [levenshtein_eq_levT, levenshtein_eq_levT,
    levT_symm x y (x.length + y.length) x.length y.length (by omega)]

/-! ### `suggest`: limited collection is a truncation of the full DFS list -/

mutual
theorem collect_suggestions_nolimit :
    ∀ (n : TrieNode) (cur : Word) (out : List Word),
      collect_suggestions n cur out 0 = out ++ wordsBelow n cur
  | .mk ch term f, cur, out => by
      rw [collect_suggestions, wordsBelow]
      cases term with
      | false => simpa using collectChildren_nolimit ch cur out
      | true => simpa using collectChildren_nolimit ch cur (out ++ [cur])

theorem collectChildren_nolimit :
    ∀ (ch : List (Nat × TrieNode)) (cur : Word) (out : List Word),
      collectChildren ch cur out 0 = out ++ wordsBelowChildren ch cur
  | [], cur, out => by simp [collectChildren, wordsBelowChildren]
  | (k, c) :: tl, cur, out => by
      rw [collectChildren, wordsBelowChildren]
      simp only [bne_self_eq_false, Bool.false_and, if_false]
      rw [collect_suggestions_nolimit c (cur ++ [k]) out,
        collectChildren_nolimit tl cur (out ++ wordsBelow c (cur ++ [k]))]
      simp
end

mutual
theorem collect_suggestions_eq_take :
    ∀ (n : TrieNode) (cur : Word) (out : List Word) (limit : Nat),
      limit ≠ 0 → out.length < limit →
      collect_suggestions n cur out limit = (out ++ wordsBelow n cur).take limit
  | .mk ch term f, cur, out, limit, h0, hlt => by
      rw [collect_suggestions, wordsBelow]
      cases term with
      | false =>
          simp only [Bool.false_and, Bool.false_eq_true, if_false, List.nil_append]
          exact collectChildren_eq_take ch cur out limit h0 hlt
      | true =>
          simp only [Bool.true_and, if_true, List.cons_append, List.nil_append]
          by_cases hful : limit ≤ out.length + 1
          · have hc : ((limit != 0) && decide (limit ≤ (out ++ [cur]).length)) = true := by
              simp [h0, hful]
            simp only [hc]
            rw [if_pos trivial]
            have hlen : (out ++ [cur]).length = limit := by
              simp only [List.length_append, List.length_cons, List.length_nil]
              omega
            have hsplit : out ++ cur :: wordsBelowChildren ch cur
                = (out ++ [cur]) ++ wordsBelowChildren ch cur := by simp
            rw [hsplit, List.take_left' hlen]
          · have hc : ((limit != 0) && decide (limit ≤ (out ++ [cur]).length)) = false := by
              simp only [Bool.and_eq_false_iff, bne_eq_false_iff_eq, decide_eq_false_iff_not,
                List.length_append, List.length_cons, List.length_nil]
              omega
            simp only [hc]
            rw [if_neg (by simp)]
            have hlt2 : (out ++ [cur]).length < limit := by
              simp only [List.length_append, List.length_cons, List.length_nil]
              omega
            rw [collectChildren_eq_take ch cur (out ++ [cur]) limit h0 hlt2]
            simp

theorem collectChildren_eq_take :
    ∀ (ch : List (Nat × TrieNode)) (cur : Word) (out : List Word) (limit : Nat),
      limit ≠ 0 → out.length < limit →
      collectChildren ch cur out limit = (out ++ wordsBelowChildren ch cur).take limit
  | [], cur, out, limit, h0, hlt => by
      rw [collectChildren, wordsBelowChildren]
      rw [List.append_nil, List.take_of_length_le (by omega)]
  | (k, c) :: tl, cur, out, limit, h0, hlt => by
      rw [collectChildren, wordsBelowChildren]
      rw [collect_suggestions_eq_take c (cur ++ [k]) out limit h0 hlt]
      set wb := wordsBelow c (cur ++ [k]) with hwb
      by_cases hful : limit ≤ out.length + wb.length
      · have hc : ((limit != 0) && decide (limit ≤ ((out ++ wb).take limit).length)) = true := by
          simp [h0, hful]
        simp only [hc]
        rw [if_pos trivial]
        have hlen : limit ≤ (out ++ wb).length := by
          simp only [List.length_append]
          omega
        rw [← List.append_assoc, List.take_append_of_le_length hlen]
      · have hc : ((limit != 0) && decide (limit ≤ ((out ++ wb).take limit).length)) = false := by
          simp only [Bool.and_eq_false_iff, bne_eq_false_iff_eq, decide_eq_false_iff_not,
            List.length_take, List.length_append]
          omega
        simp only [hc]
        rw [if_neg (by simp)]
        have heq : (out ++ wb).take limit = out ++ wb :=
          List.take_of_length_le (by
            simp only [List.length_append]
            omega)
        rw [heq, collectChildren_eq_take tl cur (out ++ wb) limit h0
          (by simp only [List.length_append]; omega)]
        simp
end

/-- `suggest` with a nonzero limit is the `limit`-prefix of the unlimited
enumeration; `suggest` with limit 0 is the full enumeration. -/
theorem suggest_eq_take (t : TrieNode) (pre : Word) (limit : Nat) (h : limit ≠ 0) :
    suggest t pre limit = (suggest t pre 0).take limit := by
  rw [suggest, suggest]
  cases hp : pathNode t pre with
  | none => simp
  | some n =>
      show collect_suggestions n pre [] limit = List.take limit (collect_suggestions n pre [] 0)
      rw [collect_suggestions_nolimit n pre [],
        collect_suggestions_eq_take n pre [] limit h (by simpa using Nat.pos_of_ne_zero h)]

/-! ### Well-formedness: distinct edge keys, preserved by `insert` -/

theorem keysDistinct_iff : ∀ l : List Nat, keysDistinct l = true ↔ l.Nodup := by
  intro l
  induction l with
  | nil => simp [keysDistinct]
  | cons k tl ih =>
      rw [keysDistinct]
      simp only [Bool.and_eq_true, List.nodup_cons, ih, Bool.not_eq_true']
      constructor
      · rintro ⟨h1, h2⟩
        refine ⟨?_, h2⟩
        intro hmem
        have : tl.any (fun x => x = k) = true := by
          simp only [List.any_eq_true, decide_eq_true_eq]
          exact ⟨k, hmem, rfl⟩
        rw [this] at h1
        cases h1
      · rintro ⟨h1, h2⟩
        refine ⟨?_, h2⟩
        by_contra hne
        simp only [Bool.not_eq_false, List.any_eq_true, decide_eq_true_eq] at hne
        obtain ⟨x, hx, hxk⟩ := hne
        exact h1 (hxk ▸ hx)

theorem wfChildren_iff : ∀ ch : List (Nat × TrieNode),
    wfChildren ch = true ↔ ∀ p ∈ ch, wfNode p.2 = true := by
  intro ch
  induction ch with
  | nil => simp [wfChildren]
  | cons p tl ih =>
      obtain ⟨k, c⟩ := p
      rw [wfChildren]
      simp [ih]

theorem wfNode_mk_iff (ch : List (Nat × TrieNode)) (b : Bool) (f : Nat) :
    wfNode (.mk ch b f) = true ↔
      (ch.map Prod.fst).Nodup ∧ ∀ p ∈ ch, wfNode p.2 = true := by
  rw [wfNode]
  simp [keysDistinct_iff, wfChildren_iff]

theorem mem_keys_insertChild :
    ∀ (ch : List (Nat × TrieNode)) (c : Nat) (rest : Word) (k : Nat),
      k ∈ (insertChild ch c rest).map Prod.fst ↔ k = c ∨ k ∈ ch.map Prod.fst := by
  intro ch c rest k
  induction ch with
  | nil => simp [insertChild]
  | cons p tl ih =>
      obtain ⟨k0, t0⟩ := p
      by_cases hk : k0 = c
      · subst hk
        rw [insertChild, if_pos rfl]
        simp only [List.map_cons, List.mem_cons]
        tauto
      · simp only [insertChild, if_neg hk, List.map_cons, List.mem_cons, ih]
        tauto

theorem wf_insert : ∀ (w : Word) (t : TrieNode),
    wfNode t = true → wfNode (insert t w) = true := by
  intro w
  induction w with
  | nil =>
      intro t hwf
      cases t with | mk ch b f =>
      rw [insert]
      rw [wfNode_mk_iff] at hwf ⊢
      exact hwf
  | cons c rest ih =>
      intro t hwf
      cases t with | mk ch b f =>
      rw [insert, wfNode_mk_iff]
      rw [wfNode_mk_iff] at hwf
      obtain ⟨hkeys, hch⟩ := hwf
      have main : ∀ ch0 : List (Nat × TrieNode),
          (ch0.map Prod.fst).Nodup → (∀ p ∈ ch0, wfNode p.2 = true) →
          ((insertChild ch0 c rest).map Prod.fst).Nodup ∧
            ∀ p ∈ insertChild ch0 c rest, wfNode p.2 = true := by
        intro ch0
        induction ch0 with
        | nil =>
            intro _ _
            refine ⟨by simp [insertChild], ?_⟩
            intro p hp
            simp only [insertChild, List.mem_singleton] at hp
            rw [hp]
            exact ih emptyNode (by rw [emptyNode, wfNode_mk_iff]; simp)
        | cons p tl ihl =>
            obtain ⟨k0, t0⟩ := p
            intro hnd hall
            simp only [List.map_cons, List.nodup_cons] at hnd
            by_cases hk : k0 = c
            · subst hk
              simp only [insertChild, if_pos rfl]
              refine ⟨by simp [hnd.1, hnd.2], ?_⟩
              intro p hp
              rcases List.mem_cons.mp hp with h | h
              · rw [h]
                exact ih t0 (hall (k0, t0) (List.mem_cons_self _ _))
              · exact hall p (List.mem_cons_of_mem _ h)
            · simp only [insertChild, if_neg hk]
              have htl := ihl hnd.2 (fun p hp => hall p (List.mem_cons_of_mem _ hp))
              refine ⟨?_, ?_⟩
              · simp only [List.map_cons, List.nodup_cons]
                refine ⟨?_, htl.1⟩
                rw [mem_keys_insertChild]
                rintro (h | h)
                · exact hk h
                · exact hnd.1 h
              · intro p hp
                rcases List.mem_cons.mp hp with h | h
                · rw [h]
                  exact hall (k0, t0) (List.mem_cons_self _ _)
                · exact htl.2 p h
      exact main ch hkeys hch

theorem wf_emptyNode : wfNode emptyNode = true := by
  rw [emptyNode, wfNode_mk_iff]
  simp

theorem wf_buildTrie (ws : List Word) : wfNode (buildTrie ws) = true := by
  rw [buildTrie]
  have : ∀ (l : List Word) (t : TrieNode), wfNode t = true →
      wfNode (List.foldl insert t l) = true := by
    intro l
    induction l with
    | nil => intro t h; simpa
    | cons w tl ih => intro t h; exact ih (insert t w) (wf_insert w t h)
  exact this ws emptyNode wf_emptyNode

theorem mem_of_findChild : ∀ (ch : List (Nat × TrieNode)) (k : Nat) (c : TrieNode),
    findChild ch k = some c → (k, c) ∈ ch := by
  intro ch k c
  induction ch with
  | nil => intro h; cases h
  | cons p tl ih =>
      obtain ⟨k0, t0⟩ := p
      rw [findChild]
      by_cases hk : k0 = k
      · subst hk
        intro h
        rw [if_pos rfl] at h
        have h2 : t0 = c := by injection h
        rw [← h2]
        exact List.mem_cons_self _ _
      · intro h
        rw [if_neg hk] at h
        exact List.mem_cons_of_mem _ (ih h)

theorem findChild_of_mem : ∀ (ch : List (Nat × TrieNode)) (k : Nat) (c : TrieNode),
    (ch.map Prod.fst).Nodup → (k, c) ∈ ch → findChild ch k = some c := by
  intro ch k c
  induction ch with
  | nil => intro _ h; cases h
  | cons p tl ih =>
      obtain ⟨k0, t0⟩ := p
      intro hnd hmem
      simp only [List.map_cons, List.nodup_cons] at hnd
      rcases List.mem_cons.mp hmem with h | h
      · injection h with hk hc
        rw [findChild, if_pos hk.symm, hc]
      · rw [findChild]
        have hk : k0 ≠ k := by
          intro he
          apply hnd.1
          subst he
          exact List.mem_map_of_mem Prod.fst h
        rw [if_neg hk]
        exact ih hnd.2 h

theorem wf_findChild (ch : List (Nat × TrieNode)) (b : Bool) (f : Nat) (k : Nat)
    (c : TrieNode) (hwf : wfNode (.mk ch b f) = true) (h : findChild ch k = some c) :
    wfNode c = true := by
  rw [wfNode_mk_iff] at hwf
  exact hwf.2 (k, c) (mem_of_findChild ch k c h)

theorem wf_pathNode : ∀ (p : Word) (t n : TrieNode),
    wfNode t = true → pathNode t p = some n → wfNode n = true := by
  intro p
  induction p with
  | nil =>
      intro t n hwf h
      rw [pathNode] at h
      cases h
      exact hwf
  | cons c rest ih =>
      intro t n hwf h
      cases t with | mk ch b f =>
      rw [pathNode] at h
      cases hf : findChild (TrieNode.children (.mk ch b f)) c with
      | none => rw [hf] at h; cases h
      | some m =>
          rw [hf] at h
          exact ih m n (wf_findChild ch b f c m hwf (by simpa [TrieNode.children] using hf)) h

/-- `contains` over a concatenated path factors through `pathNode`. -/
theorem contains_append : ∀ (p : Word) (t : TrieNode) (s : Word),
    contains t (p ++ s) = match pathNode t p with
      | none => false
      | some n => contains n s := by
  intro p
  induction p with
  | nil => intro t s; rw [pathNode]; simp
  | cons c rest ih =>
      intro t s
      rw [List.cons_append, contains, pathNode]
      cases findChild t.children c with
      | none => simp
      | some m => simpa using ih m s

/-! ### `wordsBelow`: membership, shape, and distinctness -/

theorem mem_wordsBelowChildren_iff :
    ∀ (ch : List (Nat × TrieNode)) (cur w : Word),
      w ∈ wordsBelowChildren ch cur ↔ ∃ p ∈ ch, w ∈ wordsBelow p.2 (cur ++ [p.1]) := by
  intro ch cur w
  induction ch with
  | nil => simp [wordsBelowChildren]
  | cons p tl ih =>
      obtain ⟨k, c⟩ := p
      rw [wordsBelowChildren, List.mem_append, ih]
      simp only [List.mem_cons]
      constructor
      · rintro (h | ⟨q, hq, hw⟩)
        · exact ⟨(k, c), Or.inl rfl, h⟩
        · exact ⟨q, Or.inr hq, hw⟩
      · rintro ⟨q, hq | hq, hw⟩
        · subst hq
          exact Or.inl hw
        · exact Or.inr ⟨q, hq, hw⟩

mutual
theorem wordsBelow_shape : ∀ (n : TrieNode) (cur w : Word),
    w ∈ wordsBelow n cur → cur <+: w
  | .mk ch term f, cur, w => by
      rw [wordsBelow, List.mem_append]
      rintro (h | h)
      · cases term with
        | false => cases h
        | true =>
            simp only [if_pos rfl, if_true, List.mem_singleton] at h
            exact h ▸ List.prefix_refl w
      · obtain ⟨k, _, hpre⟩ := wordsBelowChildren_shape ch cur w h
        exact List.IsPrefix.trans ⟨[k], rfl⟩ hpre

theorem wordsBelowChildren_shape : ∀ (ch : List (Nat × TrieNode)) (cur w : Word),
    w ∈ wordsBelowChildren ch cur → ∃ k, k ∈ ch.map Prod.fst ∧ (cur ++ [k]) <+: w
  | [], cur, w => by
      rw [wordsBelowChildren]
      rintro ⟨⟩
  | (k0, c0) :: tl, cur, w => by
      rw [wordsBelowChildren, List.mem_append]
      rintro (h | h)
      · exact ⟨k0, by simp, wordsBelow_shape c0 (cur ++ [k0]) w h⟩
      · obtain ⟨k, hk, hpre⟩ := wordsBelowChildren_shape tl cur w h
        exact ⟨k, by simp [List.mem_cons]; right; simpa using hk, hpre⟩
end

mutual
theorem mem_wordsBelow_iff : ∀ (n : TrieNode), wfNode n = true → ∀ (cur w : Word),
    (w ∈ wordsBelow n cur ↔ ∃ s, contains n s = true ∧ w = cur ++ s)
  | .mk ch term f, hwf, cur, w => by
      have hwf' := (wfNode_mk_iff ch term f).mp hwf
      rw [wordsBelow, List.mem_append,
        mem_wordsBelowChildren_contains ch hwf'.2 cur w]
      constructor
      · rintro (h | ⟨k, c, s, hm, hc, hw⟩)
        · cases term with
          | false => cases h
          | true =>
              simp only [if_pos rfl, if_true, List.mem_singleton] at h
              exact ⟨[], rfl, by simpa using h⟩
        · refine ⟨k :: s, ?_, hw⟩
          have hf : findChild ch k = some c := findChild_of_mem ch k c hwf'.1 hm
          rw [contains]
          simpa [TrieNode.children, hf] using hc
      · rintro ⟨s, hc, hw⟩
        cases s with
        | nil =>
            left
            rw [contains] at hc
            have : term = true := by simpa [TrieNode.is_terminal] using hc
            rw [this]
            simpa using hw
        | cons k s' =>
            right
            rw [contains] at hc
            cases hf : findChild (TrieNode.children (.mk ch term f)) k with
            | none => rw [hf] at hc; cases hc
            | some c =>
                rw [hf] at hc
                exact ⟨k, c, s', mem_of_findChild ch k c (by simpa [TrieNode.children] using hf),
                  hc, hw⟩

theorem mem_wordsBelowChildren_contains :
    ∀ (ch : List (Nat × TrieNode)), (∀ p ∈ ch, wfNode p.2 = true) → ∀ (cur w : Word),
      (w ∈ wordsBelowChildren ch cur ↔
        ∃ k c s, (k, c) ∈ ch ∧ contains c s = true ∧ w = cur ++ k :: s)
  | [], _, cur, w => by simp [wordsBelowChildren]
  | (k0, c0) :: tl, hwf, cur, w => by
      rw [wordsBelowChildren, List.mem_append,
        mem_wordsBelow_iff c0 (hwf (k0, c0) (List.mem_cons_self _ _)) (cur ++ [k0]) w,
        mem_wordsBelowChildren_contains tl
          (fun p hp => hwf p (List.mem_cons_of_mem _ hp)) cur w]
      constructor
      · rintro (⟨s, hc, hw⟩ | ⟨k, c, s, hm, hc, hw⟩)
        · exact ⟨k0, c0, s, List.mem_cons_self _ _, hc, by simpa using hw⟩
        · exact ⟨k, c, s, List.mem_cons_of_mem _ hm, hc, hw⟩
      · rintro ⟨k, c, s, hm, hc, hw⟩
        rcases List.mem_cons.mp hm with he | hm'
        · injection he with h1 h2
          subst h1
          subst h2
          left
          exact ⟨s, hc, by simpa using hw⟩
        · right
          exact ⟨k, c, s, hm', hc, hw⟩
end

mutual
theorem nodup_wordsBelow : ∀ (n : TrieNode), wfNode n = true → ∀ cur,
    (wordsBelow n cur).Nodup
  | .mk ch term f, hwf, cur => by
      have hwf' := (wfNode_mk_iff ch term f).mp hwf
      rw [wordsBelow]
      apply List.Nodup.append
      · cases term <;> simp
      · exact nodup_wordsBelowChildren ch hwf'.1 hwf'.2 cur
      · intro w hw1 hw2
        cases term with
        | false => cases hw1
        | true =>
            simp only [if_pos rfl, if_true, List.mem_singleton] at hw1
            subst hw1
            obtain ⟨k, _, hpre⟩ := wordsBelowChildren_shape ch w w hw2
            have := hpre.length_le
            simp at this

theorem nodup_wordsBelowChildren : ∀ (ch : List (Nat × TrieNode)),
    (ch.map Prod.fst).Nodup → (∀ p ∈ ch, wfNode p.2 = true) → ∀ cur,
    (wordsBelowChildren ch cur).Nodup
  | [], _, _, cur => by simp [wordsBelowChildren]
  | (k0, c0) :: tl, hnd, hwf, cur => by
      simp only [List.map_cons, List.nodup_cons] at hnd
      rw [wordsBelowChildren]
      apply List.Nodup.append
      · exact nodup_wordsBelow c0 (hwf (k0, c0) (List.mem_cons_self _ _)) (cur ++ [k0])
      · exact nodup_wordsBelowChildren tl hnd.2
          (fun p hp => hwf p (List.mem_cons_of_mem _ hp)) cur
      · intro w hw1 hw2
        have hpre0 : (cur ++ [k0]) <+: w := wordsBelow_shape c0 (cur ++ [k0]) w hw1
        obtain ⟨k, hk, hpre⟩ := wordsBelowChildren_shape tl cur w hw2
        have heq : cur ++ [k0] = cur ++ [k] := by
          rcases List.prefix_or_prefix_of_prefix hpre0 hpre with h | h
          · exact h.eq_of_length (by simp)
          · exact (h.eq_of_length (by simp)).symm
        have : k0 = k := by
          have := List.append_cancel_left heq
          simpa using this
        exact hnd.1 (this ▸ hk)
end

/-! ### `suggest` over reachable tries -/

theorem mem_suggest_zero (ws : List Word) (P w : Word) :
    w ∈ suggest (buildTrie ws) P 0 ↔ w ∈ ws ∧ P <+: w := by
  rw [suggest]
  cases hp : pathNode (buildTrie ws) P with
  | none =>
      simp only [List.not_mem_nil, false_iff]
      rintro ⟨hmem, s, rfl⟩
      have hc : contains (buildTrie ws) (P ++ s) = true := by
        rw [contains_buildTrie]
        simpa using hmem
      rw [contains_append, hp] at hc
      cases hc
  | some n =>
      have hwfn : wfNode n = true := wf_pathNode P (buildTrie ws) n (wf_buildTrie ws) hp
      show (w ∈ collect_suggestions n P [] 0) ↔ w ∈ ws ∧ P <+: w
      rw [collect_suggestions_nolimit n P []]
      rw [List.nil_append]
      rw [mem_wordsBelow_iff n hwfn P w]
      constructor
      · rintro ⟨s, hc, rfl⟩
        have hc2 : contains (buildTrie ws) (P ++ s) = true := by
          rw [contains_append, hp]
          exact hc
        rw [contains_buildTrie] at hc2
        exact ⟨by simpa using hc2, s, rfl⟩
      · rintro ⟨hmem, s, rfl⟩
        refine ⟨s, ?_, rfl⟩
        have hc2 : contains (buildTrie ws) (P ++ s) = true := by
          rw [contains_buildTrie]
          simpa using hmem
        rw [contains_append, hp] at hc2
        exact hc2

theorem nodup_suggest_zero (ws : List Word) (P : Word) :
    (suggest (buildTrie ws) P 0).Nodup := by
  rw [suggest]
  cases hp : pathNode (buildTrie ws) P with
  | none => simp
  | some n =>
      show (collect_suggestions n P [] 0).Nodup
      rw [collect_suggestions_nolimit n P [], List.nil_append]
      exact nodup_wordsBelow n (wf_pathNode P (buildTrie ws) n (wf_buildTrie ws) hp) P

theorem length_suggest_zero (ws : List Word) (P : Word) :
    (suggest (buildTrie ws) P 0).length
      = ((ws.dedup.filter (fun w => decide (P <+: w))).length) := by
  apply List.Perm.length_eq
  rw [List.perm_ext_iff_of_nodup (nodup_suggest_zero ws P)
    (List.Nodup.filter _ (List.nodup_dedup ws))]
  intro w
  rw [mem_suggest_zero, List.mem_filter, List.mem_dedup]
  simp

/-! ### Claim theorems (part 2) -/

/-- **C2.** If no inserted word has `P` as a prefix, `suggest(P, L)` is
empty; `suggest(P, 0)` enumerates exactly the inserted words having `P`
as a prefix, each exactly once; and for `L ≠ 0` the result holds exactly
`min(L, count)` elements, each an inserted word having `P` as a prefix. -/
theorem suggest_spec (ws : List Word) (P : Word) (L : Nat) :
    ((∀ w ∈ ws, ¬ P <+: w) → suggest (buildTrie ws) P L = []) ∧
    ((suggest (buildTrie ws) P 0).Nodup ∧
      (∀ w, w ∈ suggest (buildTrie ws) P 0 ↔ w ∈ ws ∧ P <+: w)) ∧
    (L ≠ 0 →
      (suggest (buildTrie ws) P L).length
          = min L ((ws.dedup.filter (fun w => decide (P <+: w))).length) ∧
      ∀ w ∈ suggest (buildTrie ws) P L, w ∈ ws ∧ P <+: w) := by
  have hzero : suggest (buildTrie ws) P 0 = [] ∨ L = 0 ∨
      suggest (buildTrie ws) P L = (suggest (buildTrie ws) P 0).take L := by
    by_cases hL : L = 0
    · exact Or.inr (Or.inl hL)
    · exact Or.inr (Or.inr (suggest_eq_take _ P L hL))
  refine ⟨?_, ⟨nodup_suggest_zero ws P, fun w => mem_suggest_zero ws P w⟩, ?_⟩
  · intro hnone
    have h0 : suggest (buildTrie ws) P 0 = [] := by
      rw [List.eq_nil_iff_forall_not_mem]
      intro w hw
      obtain ⟨hmem, hpre⟩ := (mem_suggest_zero ws P w).mp hw
      exact hnone w hmem hpre
    by_cases hL : L = 0
    · rw [hL, h0]
    · rw [suggest_eq_take _ P L hL, h0, List.take_nil]
  · intro hL
    rw [suggest_eq_take _ P L hL]
    refine ⟨?_, ?_⟩
    · rw [List.length_take, length_suggest_zero ws P]
    · intro w hw
      exact (mem_suggest_zero ws P w).mp (List.mem_of_mem_take hw)

/-- Witness for `suggest_spec`: the empty-result and the counting clauses
at a concrete trie (`{[0], [0,1]}`). -/
theorem suggest_spec_witness :
    suggest (buildTrie [[0], [0, 1]]) [1] 1 = [] ∧
    (suggest (buildTrie [[0], [0, 1]]) [0] 1).length
      = min 1 (([[0], [0, 1]].dedup.filter (fun w => decide ([0] <+: w))).length) := by
  constructor
  · exact (suggest_spec [[0], [0, 1]] [1] 1).1 (by decide)
  · exact ((suggest_spec [[0], [0, 1]] [0] 1).2.2 (by decide)).1

/-- Every result of `suggest(P, ·)` has `P` as a prefix (the collector
only ever extends `current`, which starts as the prefix). -/
theorem mem_suggest_zero_prefix (t : TrieNode) (P w : Word) :
    w ∈ suggest t P 0 → P <+: w := by
  intro hw
  rw [suggest] at hw
  cases hp : pathNode t P with
  | none => rw [hp] at hw; cases hw
  | some n =>
      rw [hp] at hw
      have hw2 : w ∈ collect_suggestions n P [] 0 := hw
      rw [collect_suggestions_nolimit n P [], List.nil_append] at hw2
      exact wordsBelow_shape n P w hw2

theorem mem_suggest_prefix (t : TrieNode) (P : Word) (L : Nat) (w : Word) :
    w ∈ suggest t P L → P <+: w := by
  by_cases hL : L = 0
  · subst hL
    exact mem_suggest_zero_prefix t P w
  · intro hw
    rw [suggest_eq_take t P L hL] at hw
    exact mem_suggest_zero_prefix t P w (List.mem_of_mem_take hw)

/-- **C7.** The empty sequence is a valid word: inserting it sets the
root's `is_terminal`, increments the root's `frequency` (the `uint32_t`
increment, modulo `2 ^ 32`) and leaves the children untouched;
`contains("")` is then true; and the empty word never appears in
`suggest(P, L)` for a non-empty prefix `P`. -/
theorem empty_word_spec (t : TrieNode) (P : Word) (L : Nat) :
    (insert t []).is_terminal = true ∧
    (insert t []).frequency = (t.frequency + 1) % 2 ^ 32 ∧
    (insert t []).children = t.children ∧
    contains (insert t []) [] = true ∧
    (P ≠ [] → [] ∉ suggest t P L) := by
  cases t with | mk ch b f =>
  refine ⟨?_, ?_, ?_, ?_, ?_⟩
  · simp [insert, TrieNode.is_terminal]
  · simp [insert, TrieNode.frequency]
  · simp [insert, TrieNode.children]
  · simp [insert, contains, TrieNode.is_terminal]
  · intro hP hmem
    have := mem_suggest_prefix (.mk ch b f) P L [] hmem
    rw [List.prefix_nil] at this
    exact hP this

/-- Witness for `empty_word_spec` at a concrete trie and prefix. -/
theorem empty_word_spec_witness :
    [] ∉ suggest (buildTrie [[], [0]]) [0] 0 ∧
    contains (insert (buildTrie [[], [0]]) []) [] = true := by
  refine ⟨(empty_word_spec (buildTrie [[], [0]]) [0] 0).2.2.2.2 (by decide), ?_⟩
  exact (empty_word_spec (buildTrie [[], [0]]) [0] 0).2.2.2.1

/-- **C5 (counterexample).** Two tries holding exactly the same words with
the same frequencies (built from permuted insertion sequences) give
different `suggest` results under truncation: the traversal order follows
the internal edge order, an incidental storage layout, not a canonical
order determined by the stored content. -/
theorem suggest_order_counterexample :
    [[0, 1], [0, 2]].Perm [[0, 2], [0, 1]] ∧
    contains (buildTrie [[0, 1], [0, 2]]) [0, 1]
      = contains (buildTrie [[0, 2], [0, 1]]) [0, 1] ∧
    contains (buildTrie [[0, 1], [0, 2]]) [0, 2]
      = contains (buildTrie [[0, 2], [0, 1]]) [0, 2] ∧
    wordFreq (buildTrie [[0, 1], [0, 2]]) [0, 1]
      = wordFreq (buildTrie [[0, 2], [0, 1]]) [0, 1] ∧
    wordFreq (buildTrie [[0, 1], [0, 2]]) [0, 2]
      = wordFreq (buildTrie [[0, 2], [0, 1]]) [0, 2] ∧
    suggest (buildTrie [[0, 1], [0, 2]]) [0] 1
      ≠ suggest (buildTrie [[0, 2], [0, 1]]) [0] 1 := by
  refine ⟨by decide, ?_, ?_, ?_, ?_, ?_⟩ <;>
    simp [buildTrie, insert, insertChild, emptyNode, contains, wordFreq, pathNode,
      findChild, TrieNode.children, TrieNode.frequency, TrieNode.is_terminal,
      suggest, collect_suggestions, collectChildren]

/-- **C5 (amended).** What does hold: for a fixed trie state the result is
deterministic, and a nonzero limit truncates the full depth-first
enumeration — `suggest(P, L)` is the `L`-prefix of `suggest(P, 0)` — but
the sibling order is the children container's internal order, so equal
content alone does not determine truncated results. -/
theorem suggest_truncates_dfs (t : TrieNode) (P : Word) (L : Nat) (hL : L ≠ 0) :
    suggest t P L = (suggest t P 0).take L := by
  exact suggest_eq_take t P L hL

/-- Witness for `suggest_truncates_dfs` at a concrete trie. -/
theorem suggest_truncates_dfs_witness :
    suggest (buildTrie [[0, 1], [0, 2]]) [0] 1
      = (suggest (buildTrie [[0, 1], [0, 2]]) [0] 0).take 1 := by
  exact suggest_truncates_dfs (buildTrie [[0, 1], [0, 2]]) [0] 1 (by decide)

/-! ### Re-insertion: frequency and structure -/

theorem wordFreq_emptyNode (w : Word) : wordFreq emptyNode w = 0 := by
  cases w with
  | nil => rfl
  | cons c rest =>
      rw [wordFreq, pathNode]
      simp [emptyNode, TrieNode.children, findChild]

theorem wordFreq_cons (ch : List (Nat × TrieNode)) (b : Bool) (f : Nat) (c : Nat)
    (rest : Word) :
    wordFreq (.mk ch b f) (c :: rest) =
      match findChild ch c with
      | some m => wordFreq m rest
      | none => 0 := by
  rw [wordFreq, pathNode]
  simp only [TrieNode.children]
  cases findChild ch c with
  | none => rfl
  | some m => rfl

theorem wordFreq_insert_self : ∀ (w : Word) (t : TrieNode),
    wordFreq (insert t w) w = (wordFreq t w + 1) % 2 ^ 32 := by
  intro w
  induction w with
  | nil =>
      intro t
      cases t with | mk ch b f =>
      rw [insert]
      rw [wordFreq, wordFreq, pathNode, pathNode]
      simp [TrieNode.frequency]
  | cons c rest ih =>
      intro t
      cases t with | mk ch b f =>
      rw [insert, wordFreq_cons, wordFreq_cons, findChild_insertChild_eq]
      cases hfc : findChild ch c with
      | none => simpa [wordFreq_emptyNode] using ih emptyNode
      | some m => simpa using ih m

theorem pathNode_insert_self : ∀ (w : Word) (t : TrieNode),
    ∃ n, pathNode (insert t w) w = some n := by
  intro w
  induction w with
  | nil =>
      intro t
      exact ⟨insert t [], by rw [pathNode]⟩
  | cons c rest ih =>
      intro t
      cases t with | mk ch b f =>
      rw [insert, pathNode]
      simp only [TrieNode.children, findChild_insertChild_eq]
      exact ih ((findChild ch c).getD emptyNode)

theorem structureOf_insert_existing : ∀ (w : Word) (t : TrieNode) (n : TrieNode),
    pathNode t w = some n → structureOf (insert t w) = structureOf t := by
  intro w
  induction w with
  | nil =>
      intro t n _
      cases t with | mk ch b f =>
      rw [insert, structureOf, structureOf]
  | cons c rest ih =>
      intro t n hp
      cases t with | mk ch b f =>
      rw [pathNode] at hp
      simp only [TrieNode.children] at hp
      cases hfc : findChild ch c with
      | none => rw [hfc] at hp; cases hp
      | some m =>
          rw [hfc] at hp
          rw [insert, structureOf, structureOf]
          have main : ∀ ch0 : List (Nat × TrieNode), findChild ch0 c = some m →
              structureOfChildren (insertChild ch0 c rest) = structureOfChildren ch0 := by
            intro ch0
            induction ch0 with
            | nil => intro h; cases h
            | cons p tl ihl =>
                obtain ⟨k, t0⟩ := p
                intro h
                rw [findChild] at h
                by_cases hk : k = c
                · rw [if_pos hk] at h
                  injection h with h
                  subst h
                  rw [insertChild, if_pos hk, structureOfChildren, structureOfChildren,
                    ih t0 n hp]
                · rw [if_neg hk] at h
                  rw [insertChild, if_neg hk, structureOfChildren, structureOfChildren,
                    ihl h]
          rw [main ch hfc]

/-- `score_word` is strictly monotone in the stored frequency. -/
theorem score_word_lt_of_lt (q w : Word) (f1 f2 : Nat) (h : f1 < f2) :
    score_word q w f1 < score_word q w f2 := by
  rw [score_word, score_word]
  have hq : (f1 : ℚ) < (f2 : ℚ) := by exact_mod_cast h
  have := mul_lt_mul_of_pos_right hq (by norm_num : (0 : ℚ) < 5 / 100)
  linarith

/-- Frequency after inserting the same word `n` times: the `uint32_t`
counter holds `n % 2 ^ 32`. -/
theorem wordFreq_foldl_replicate : ∀ (n : Nat) (t : TrieNode) (w : Word),
    wordFreq t w < 2 ^ 32 →
    wordFreq (List.foldl insert t (List.replicate n w)) w
      = (wordFreq t w + n) % 2 ^ 32 := by
  intro n
  induction n with
  | zero =>
      intro t w h
      rw [List.replicate_zero, List.foldl_nil, Nat.add_zero, Nat.mod_eq_of_lt h]
  | succ n ih =>
      intro t w h
      rw [List.replicate_succ, List.foldl_cons,
        ih (insert t w) w (by rw [wordFreq_insert_self]; exact Nat.mod_lt _ (by norm_num)),
        wordFreq_insert_self, Nat.mod_add_mod]
      omega

theorem wordFreq_buildTrie_replicate (n : Nat) (w : Word) :
    wordFreq (buildTrie (List.replicate n w)) w = n % 2 ^ 32 := by
  rw [buildTrie, wordFreq_foldl_replicate n emptyNode w
    (by rw [wordFreq_emptyNode]; norm_num), wordFreq_emptyNode, Nat.zero_add]

/-- **C6 (counterexample).** The strict score increase is not universal:
at the reachable state holding the word `[0]` with stored frequency
`2 ^ 32 - 2`, a single re-insert stores `2 ^ 32 - 1`, but a double
re-insert wraps the `uint32_t` counter to `0` — the frequency is not the
single-insert frequency plus one, and the score after two insertions is
strictly lower, not higher. -/
theorem double_insert_score_counterexample :
    wordFreq (insert (buildTrie (List.replicate (2 ^ 32 - 2) [0])) [0]) [0]
      = 2 ^ 32 - 1 ∧
    wordFreq (insert (insert (buildTrie (List.replicate (2 ^ 32 - 2) [0])) [0]) [0]) [0]
      = 0 ∧
    score_word [0] [0]
        (wordFreq (insert (insert (buildTrie (List.replicate (2 ^ 32 - 2) [0])) [0]) [0]) [0])
      < score_word [0] [0]
        (wordFreq (insert (buildTrie (List.replicate (2 ^ 32 - 2) [0])) [0]) [0]) := by
  have h0 : wordFreq (buildTrie (List.replicate (2 ^ 32 - 2) [0])) [0] = 2 ^ 32 - 2 := by
    rw [wordFreq_buildTrie_replicate]
    omega
  have h1 : wordFreq (insert (buildTrie (List.replicate (2 ^ 32 - 2) [0])) [0]) [0]
      = 2 ^ 32 - 1 := by
    rw [wordFreq_insert_self, h0]
    omega
  have h2 : wordFreq (insert (insert (buildTrie (List.replicate (2 ^ 32 - 2) [0])) [0]) [0]) [0]
      = 0 := by
    rw [wordFreq_insert_self, h1]
    omega
  refine ⟨h1, h2, ?_⟩
  rw [h1, h2]
  exact score_word_lt_of_lt [0] [0] 0 (2 ^ 32 - 1) (by norm_num)

/-- **C6 (amended).** Away from the `uint32_t` wrap boundary — whenever
the frequency stored after the first insertion can still be incremented
without wrapping — re-inserting a word leaves the node structure
unchanged, keeps every membership answer the same, increments that word's
frequency by 1, and raises its `score_word` score by exactly the
`freq_bonus` step 0.05, hence strictly. -/
theorem double_insert_score (ws : List Word) (W : Word)
    (hnw : wordFreq (insert (buildTrie ws) W) W + 1 < 2 ^ 32) :
    structureOf (insert (insert (buildTrie ws) W) W)
        = structureOf (insert (buildTrie ws) W) ∧
    (∀ v, contains (insert (insert (buildTrie ws) W) W) v
        = contains (insert (buildTrie ws) W) v) ∧
    wordFreq (insert (insert (buildTrie ws) W) W) W
        = wordFreq (insert (buildTrie ws) W) W + 1 ∧
    score_word W W (wordFreq (insert (insert (buildTrie ws) W) W) W)
        = score_word W W (wordFreq (insert (buildTrie ws) W) W) + 5 / 100 ∧
    score_word W W (wordFreq (insert (insert (buildTrie ws) W) W) W)
        > score_word W W (wordFreq (insert (buildTrie ws) W) W) := by
  obtain ⟨n, hn⟩ := pathNode_insert_self W (buildTrie ws)
  have hfreq : wordFreq (insert (insert (buildTrie ws) W) W) W
      = wordFreq (insert (buildTrie ws) W) W + 1 := by
    rw [wordFreq_insert_self, Nat.mod_eq_of_lt hnw]
  have hscore : score_word W W (wordFreq (insert (buildTrie ws) W) W + 1)
      = score_word W W (wordFreq (insert (buildTrie ws) W) W) + 5 / 100 := by
    rw [score_word, score_word]
    push_cast
    ring
  refine ⟨structureOf_insert_existing W _ n hn, ?_, hfreq, ?_, ?_⟩
  · intro v
    rw [contains_insert, contains_insert]
    cases h : decide (v = W) <;> simp [h]
  · rw [hfreq, hscore]
  · rw [hfreq, hscore]
    have : (0 : ℚ) < 5 / 100 := by norm_num
    linarith

/-- Witness for `double_insert_score` at a fresh trie. -/
theorem double_insert_score_witness :
    wordFreq (insert (insert (buildTrie []) [0]) [0]) [0]
      = wordFreq (insert (buildTrie []) [0]) [0] + 1 ∧
    score_word [0] [0] (wordFreq (insert (insert (buildTrie []) [0]) [0]) [0])
      > score_word [0] [0] (wordFreq (insert (buildTrie []) [0]) [0]) := by
  have hnw : wordFreq (insert (buildTrie []) [0]) [0] + 1 < 2 ^ 32 := by
    simp [buildTrie, insert, insertChild, emptyNode, wordFreq, pathNode, findChild,
      TrieNode.children, TrieNode.frequency]
  obtain ⟨-, -, h3, -, h5⟩ := double_insert_score [] [0] hnw
  exact ⟨h3, h5⟩

/-! ### Monotone growth of the node store -/

theorem pathNode_insert_mono : ∀ (v w : Word) (t n : TrieNode),
    pathNode t v = some n →
    ∃ n', pathNode (insert t w) v = some n' ∧
      (n.is_terminal = true → n'.is_terminal = true) ∧
      (n'.frequency = n.frequency ∨ n'.frequency = (n.frequency + 1) % 2 ^ 32) := by
  intro v
  induction v with
  | nil =>
      intro w t n hp
      cases t with | mk ch b f =>
      rw [pathNode] at hp
      injection hp with hp
      subst hp
      refine ⟨insert (.mk ch b f) w, by rw [pathNode], ?_, ?_⟩
      · cases w with
        | nil => intro _; simp [insert, TrieNode.is_terminal]
        | cons c wr => intro h; simpa [insert, TrieNode.is_terminal] using h
      · cases w with
        | nil => right; simp [insert, TrieNode.frequency]
        | cons c wr => left; simp [insert, TrieNode.frequency]
  | cons d vr ih =>
      intro w t n hp
      cases t with | mk ch b f =>
      rw [pathNode] at hp
      simp only [TrieNode.children] at hp
      cases hfc : findChild ch d with
      | none => rw [hfc] at hp; cases hp
      | some m =>
          rw [hfc] at hp
          cases w with
          | nil =>
              refine ⟨n, ?_, fun h => h, Or.inl rfl⟩
              rw [insert, pathNode]
              simp only [TrieNode.children]
              rw [hfc]
              exact hp
          | cons c wr =>
              rw [insert, pathNode]
              simp only [TrieNode.children]
              by_cases hdc : d = c
              · subst hdc
                rw [findChild_insertChild_eq, hfc]
                exact ih wr m n hp
              · rw [findChild_insertChild_ne ch c d wr hdc, hfc]
                exact ⟨n, hp, fun h => h, Or.inl rfl⟩

theorem freqInv_emptyNode : freqInv emptyNode := by
  intro v n hp hf
  cases v with
  | nil =>
      rw [pathNode] at hp
      injection hp with hp
      subst hp
      simp [emptyNode, TrieNode.frequency] at hf
  | cons c rest =>
      rw [pathNode] at hp
      simp [emptyNode, TrieNode.children, findChild] at hp

theorem freqInv_child (ch : List (Nat × TrieNode)) (b : Bool) (f : Nat) (d : Nat)
    (m : TrieNode) (ht : freqInv (.mk ch b f)) (hfc : findChild ch d = some m) :
    freqInv m := by
  intro v n hp hf
  apply ht (d :: v) n _ hf
  rw [pathNode]
  simp only [TrieNode.children]
  rw [hfc]
  exact hp

theorem freqInv_insert : ∀ (w : Word) (t : TrieNode),
    freqInv t → freqInv (insert t w) := by
  intro w
  induction w with
  | nil =>
      intro t ht v n hp hf
      cases t with | mk ch b f =>
      rw [insert] at hp
      cases v with
      | nil =>
          rw [pathNode] at hp
          injection hp with hp
          subst hp
          simp [TrieNode.is_terminal]
      | cons d vr =>
          rw [pathNode] at hp
          simp only [TrieNode.children] at hp
          cases hfc : findChild ch d with
          | none => rw [hfc] at hp; cases hp
          | some m =>
              rw [hfc] at hp
              exact freqInv_child ch b f d m ht hfc vr n hp hf
  | cons c wr ih =>
      intro t ht v n hp hf
      cases t with | mk ch b f =>
      rw [insert] at hp
      cases v with
      | nil =>
          rw [pathNode] at hp
          injection hp with hp
          subst hp
          simp only [TrieNode.frequency] at hf
          have := ht [] (.mk ch b f) (by rw [pathNode]) (by simpa [TrieNode.frequency] using hf)
          simpa [TrieNode.is_terminal] using this
      | cons d vr =>
          rw [pathNode] at hp
          simp only [TrieNode.children] at hp
          by_cases hdc : d = c
          · subst hdc
            rw [findChild_insertChild_eq] at hp
            have hm0 : freqInv ((findChild ch d).getD emptyNode) := by
              cases hfc : findChild ch d with
              | none => simpa [hfc] using freqInv_emptyNode
              | some m => simpa [hfc] using freqInv_child ch b f d m ht hfc
            exact ih _ hm0 vr n hp hf
          · rw [findChild_insertChild_ne ch c d wr hdc] at hp
            cases hfc : findChild ch d with
            | none => rw [hfc] at hp; cases hp
            | some m =>
                rw [hfc] at hp
                exact freqInv_child ch b f d m ht hfc vr n hp hf

theorem freqInv_buildTrie (ws : List Word) : freqInv (buildTrie ws) := by
  rw [buildTrie]
  have : ∀ (l : List Word) (t : TrieNode), freqInv t → freqInv (List.foldl insert t l) := by
    intro l
    induction l with
    | nil => intro t h; simpa
    | cons w tl ihl => intro t h; exact ihl (insert t w) (freqInv_insert w t h)
  exact this ws emptyNode freqInv_emptyNode

/-- **C8 (amended).** The node store grows monotonically: every node
reachable before an `insert` is still reachable after it and its terminal
flag is never cleared; an `insert` leaves every node's frequency
unchanged except at the inserted word's final node, where it becomes
`(f + 1) % 2 ^ 32` — non-decreasing except exactly at the `uint32_t`
wrap from `2 ^ 32 - 1` to `0`; and in every reachable state a node's
frequency is ≥ 1 only once its terminal flag is set. -/
theorem monotone_growth (ws : List Word) (w v : Word) (n : TrieNode)
    (h : pathNode (buildTrie ws) v = some n) :
    (∃ n', pathNode (insert (buildTrie ws) w) v = some n' ∧
      (n.is_terminal = true → n'.is_terminal = true) ∧
      (n'.frequency = n.frequency ∨ n'.frequency = (n.frequency + 1) % 2 ^ 32)) ∧
    (1 ≤ n.frequency → n.is_terminal = true) :=
  ⟨pathNode_insert_mono v w (buildTrie ws) n h, freqInv_buildTrie ws v n h⟩

/-- **C8 (counterexample).** Frequency is not monotonically
non-decreasing: at the reachable state where the word `[0]` has been
inserted `2 ^ 32 - 1` times, its node stores frequency `2 ^ 32 - 1`, and
one more insert wraps the `uint32_t` counter to `0` — an observable
decrease (it feeds `score_word`). -/
theorem monotone_growth_counterexample :
    wordFreq (buildTrie (List.replicate (2 ^ 32 - 1) [0])) [0] = 2 ^ 32 - 1 ∧
    wordFreq (insert (buildTrie (List.replicate (2 ^ 32 - 1) [0])) [0]) [0] = 0 ∧
    wordFreq (insert (buildTrie (List.replicate (2 ^ 32 - 1) [0])) [0]) [0]
      < wordFreq (buildTrie (List.replicate (2 ^ 32 - 1) [0])) [0] := by
  have h0 : wordFreq (buildTrie (List.replicate (2 ^ 32 - 1) [0])) [0] = 2 ^ 32 - 1 := by
    rw [wordFreq_buildTrie_replicate]
    omega
  have h1 : wordFreq (insert (buildTrie (List.replicate (2 ^ 32 - 1) [0])) [0]) [0] = 0 := by
    rw [wordFreq_insert_self, h0]
    omega
  refine ⟨h0, h1, ?_⟩
  rw [h0, h1]
  norm_num

/-- Witness for `monotone_growth` at a concrete trie and path. -/
theorem monotone_growth_witness :
    (pathNode (insert (buildTrie [[0]]) [1]) [0]).isSome = true ∧
    (TrieNode.mk [] true 1).is_terminal = true := by
  have h : pathNode (buildTrie [[0]]) [0] = some (.mk [] true 1) := by
    simp [buildTrie, insert, insertChild, emptyNode, pathNode, findChild, TrieNode.children]
  have hm := monotone_growth [[0]] [1] [0] (.mk [] true 1) h
  obtain ⟨⟨m, hmp, _, _⟩, h2⟩ := hm
  refine ⟨by rw [hmp]; rfl, h2 (by simp [TrieNode.frequency])⟩

/-! ### `search_ranked`: the collected entries -/

mutual
theorem collect_scored_eq :
    ∀ (n : TrieNode) (cur : Word) (out : List (Word × ℚ)) (q : Word),
      collect_scored n cur out q = out ++ scoredBelow n cur q
  | .mk ch term f, cur, out, q => by
      rw [collect_scored, scoredBelow]
      cases term with
      | false => simpa using scoredChildren_eq ch cur out q
      | true => simpa using scoredChildren_eq ch cur (out ++ [(cur, score_word q cur f)]) q

theorem scoredChildren_eq :
    ∀ (ch : List (Nat × TrieNode)) (cur : Word) (out : List (Word × ℚ)) (q : Word),
      scoredChildren ch cur out q = out ++ scoredBelowChildren ch cur q
  | [], cur, out, q => by simp [scoredChildren, scoredBelowChildren]
  | (k, c) :: tl, cur, out, q => by
      rw [scoredChildren, scoredBelowChildren,
        collect_scored_eq c (cur ++ [k]) out q,
        scoredChildren_eq tl cur (out ++ scoredBelow c (cur ++ [k]) q) q]
      simp
end

mutual
theorem scoredBelow_map_fst : ∀ (n : TrieNode) (cur q : Word),
    (scoredBelow n cur q).map Prod.fst = wordsBelow n cur
  | .mk ch term f, cur, q => by
      rw [scoredBelow, wordsBelow, List.map_append,
        scoredBelowChildren_map_fst ch cur q]
      cases term <;> simp

theorem scoredBelowChildren_map_fst : ∀ (ch : List (Nat × TrieNode)) (cur q : Word),
    (scoredBelowChildren ch cur q).map Prod.fst = wordsBelowChildren ch cur
  | [], cur, q => by simp [scoredBelowChildren, wordsBelowChildren]
  | (k, c) :: tl, cur, q => by
      rw [scoredBelowChildren, wordsBelowChildren, List.map_append,
        scoredBelow_map_fst c (cur ++ [k]) q,
        scoredBelowChildren_map_fst tl cur q]
end

mutual
theorem scoredBelow_sound : ∀ (n : TrieNode), wfNode n = true →
    ∀ (cur q w : Word) (sc : ℚ), (w, sc) ∈ scoredBelow n cur q →
    ∃ su m, pathNode n su = some m ∧ m.is_terminal = true ∧ w = cur ++ su ∧
      sc = score_word q w m.frequency
  | .mk ch term f, hwf, cur, q, w, sc => by
      have hwf' := (wfNode_mk_iff ch term f).mp hwf
      rw [scoredBelow, List.mem_append]
      rintro (h | h)
      · cases term with
        | false => cases h
        | true =>
            simp only [if_pos rfl, if_true, List.mem_singleton, Prod.mk.injEq] at h
            refine ⟨[], .mk ch true f, by rw [pathNode], rfl, by simp [h.1], ?_⟩
            rw [h.2, h.1]
            rfl
      · obtain ⟨k, c, su, m, hmem, hp, hterm, hw, hs⟩ :=
          scoredBelowChildren_sound ch hwf'.2 cur q w sc h
        refine ⟨k :: su, m, ?_, hterm, by simpa using hw, hs⟩
        rw [pathNode]
        simp only [TrieNode.children]
        rw [findChild_of_mem ch k c hwf'.1 hmem]
        exact hp

theorem scoredBelowChildren_sound : ∀ (ch : List (Nat × TrieNode)),
    (∀ p ∈ ch, wfNode p.2 = true) →
    ∀ (cur q w : Word) (sc : ℚ), (w, sc) ∈ scoredBelowChildren ch cur q →
    ∃ k c su m, (k, c) ∈ ch ∧ pathNode c su = some m ∧ m.is_terminal = true ∧
      w = (cur ++ [k]) ++ su ∧ sc = score_word q w m.frequency
  | [], _, cur, q, w, sc => by
      rw [scoredBelowChildren]
      rintro ⟨⟩
  | (k0, c0) :: tl, hwf, cur, q, w, sc => by
      rw [scoredBelowChildren, List.mem_append]
      rintro (h | h)
      · obtain ⟨su, m, hp, hterm, hw, hs⟩ :=
          scoredBelow_sound c0 (hwf (k0, c0) (List.mem_cons_self _ _)) (cur ++ [k0]) q w sc h
        exact ⟨k0, c0, su, m, List.mem_cons_self _ _, hp, hterm, hw, hs⟩
      · obtain ⟨k, c, su, m, hmem, hp, hterm, hw, hs⟩ :=
          scoredBelowChildren_sound tl (fun p hp => hwf p (List.mem_cons_of_mem _ hp)) cur q w sc h
        exact ⟨k, c, su, m, List.mem_cons_of_mem _ hmem, hp, hterm, hw, hs⟩
end

/-! ### The ranking comparator -/

theorem wordLt_irrefl : ∀ a : Word, wordLt a a = false := by
  intro a
  induction a with
  | nil => rfl
  | cons c tl ih => simp [wordLt, ih]

theorem wordLt_asymm : ∀ a b : Word, wordLt a b = true → wordLt b a = false := by
  intro a
  induction a with
  | nil =>
      intro b h
      cases b with
      | nil => cases h
      | cons d tl => rfl
  | cons c tl ih =>
      intro b h
      cases b with
      | nil => cases h
      | cons d bl =>
          rw [wordLt] at h ⊢
          by_cases hcd : c < d
          · rw [if_pos hcd] at h
            rw [if_neg (by omega), if_pos hcd]
          · rw [if_neg hcd] at h
            by_cases hdc : d < c
            · rw [if_pos hdc] at h
              cases h
            · rw [if_neg hdc] at h
              rw [if_neg hdc, if_neg hcd]
              exact ih bl h

theorem wordLt_trans : ∀ a b c : Word,
    wordLt a b = true → wordLt b c = true → wordLt a c = true := by
  intro a
  induction a with
  | nil =>
      intro b c hab hbc
      cases b with
      | nil => cases hab
      | cons d bl =>
          cases c with
          | nil => cases hbc
          | cons e cl => rfl
  | cons x al ih =>
      intro b c hab hbc
      cases b with
      | nil => cases hab
      | cons y bl =>
          cases c with
          | nil => cases hbc
          | cons z cl =>
              rw [wordLt] at hab hbc ⊢
              by_cases hxy : x < y
              · by_cases hyz : y < z
                · rw [if_pos (by omega)]
                · rw [if_neg hyz] at hbc
                  by_cases hzy : z < y
                  · rw [if_pos hzy] at hbc
                    cases hbc
                  · have : y = z := by omega
                    subst this
                    rw [if_pos hxy]
              · rw [if_neg hxy] at hab
                by_cases hyx : y < x
                · rw [if_pos hyx] at hab
                  cases hab
                · have hxe : x = y := by omega
                  subst hxe
                  rw [if_neg (lt_irrefl x)] at hab
                  by_cases hxz : x < z
                  · rw [if_pos hxz]
                  · rw [if_neg hxz] at hbc ⊢
                    by_cases hzx : z < x
                    · rw [if_pos hzx] at hbc
                      cases hbc
                    · rw [if_neg hzx] at hbc ⊢
                      exact ih bl cl hab hbc

theorem wordLt_conn : ∀ a b : Word,
    wordLt a b = false → wordLt b a = false → a = b := by
  intro a
  induction a with
  | nil =>
      intro b hab hba
      cases b with
      | nil => rfl
      | cons d bl => cases hab
  | cons c al ih =>
      intro b hab hba
      cases b with
      | nil => cases hba
      | cons d bl =>
          rw [wordLt] at hab hba
          by_cases hcd : c < d
          · rw [if_pos hcd] at hab
            cases hab
          · rw [if_neg hcd] at hab
            by_cases hdc : d < c
            · rw [if_pos hdc] at hba
              cases hba
            · rw [if_neg hdc] at hab
              rw [if_neg hcd] at hba
              have : c = d := by omega
              subst this
              rw [if_neg (lt_irrefl c)] at hba
              rw [ih bl hab hba]

theorem scoredBefore_iff (x y : Word × ℚ) :
    scoredBefore x y = true ↔
      (x.2 = y.2 ∧ wordLt x.1 y.1 = true) ∨ (x.2 ≠ y.2 ∧ y.2 < x.2) := by
  rw [scoredBefore]
  by_cases h : x.2 = y.2 <;> simp [h]

theorem scoredBefore_asymm (x y : Word × ℚ) (h : scoredBefore x y = true) :
    scoredBefore y x = false := by
  cases hb : scoredBefore y x with
  | false => rfl
  | true =>
      exfalso
      rw [scoredBefore_iff] at h hb
      rcases h with ⟨he, hw⟩ | ⟨hne, hlt⟩
      · rcases hb with ⟨_, hw2⟩ | ⟨hne2, _⟩
        · rw [wordLt_asymm x.1 y.1 hw] at hw2
          cases hw2
        · exact hne2 he.symm
      · rcases hb with ⟨he2, _⟩ | ⟨_, hlt2⟩
        · exact hne he2.symm
        · exact absurd hlt2 (lt_asymm hlt)

theorem scoredLe_total (x y : Word × ℚ) : (scoredLe x y || scoredLe y x) = true := by
  rw [scoredLe, scoredLe]
  cases hb : scoredBefore y x with
  | false => simp
  | true => simp [scoredBefore_asymm y x hb]

theorem scoredLe_trans (x y z : Word × ℚ)
    (hxy : scoredLe x y = true) (hyz : scoredLe y z = true) : scoredLe x z = true := by
  simp only [scoredLe, Bool.not_eq_true'] at hxy hyz
  rw [scoredLe]
  cases hb : scoredBefore z x with
  | false => rfl
  | true =>
      exfalso
      rw [scoredBefore_iff] at hb
      have hyx : ¬ ((y.2 = x.2 ∧ wordLt y.1 x.1 = true) ∨ (y.2 ≠ x.2 ∧ x.2 < y.2)) := by
        rw [← scoredBefore_iff]
        simp [hxy]
      have hzy : ¬ ((z.2 = y.2 ∧ wordLt z.1 y.1 = true) ∨ (z.2 ≠ y.2 ∧ y.2 < z.2)) := by
        rw [← scoredBefore_iff]
        simp [hyz]
      push_neg at hyx hzy
      have hyx2 : y.2 ≤ x.2 := by
        by_cases he : y.2 = x.2
        · exact le_of_eq he
        · exact le_of_not_lt fun hlt => absurd hlt (by simpa [he] using hyx.2 he)
      have hzy2 : z.2 ≤ y.2 := by
        by_cases he : z.2 = y.2
        · exact le_of_eq he
        · exact le_of_not_lt fun hlt => absurd hlt (by simpa [he] using hzy.2 he)
      rcases hb with ⟨hzx, hw⟩ | ⟨hne, hlt⟩
      · have hyeq : y.2 = x.2 := le_antisymm hyx2 (hzx ▸ hzy2)
        have hzeq : z.2 = y.2 := by rw [hyeq, hzx]
        have hw1 : wordLt y.1 x.1 = false := by
          cases hc : wordLt y.1 x.1 with
          | false => rfl
          | true => exact absurd hc (by simpa using hyx.1 hyeq)
        have hw2 : wordLt z.1 y.1 = false := by
          cases hc : wordLt z.1 y.1 with
          | false => rfl
          | true => exact absurd hc (by simpa using hzy.1 hzeq)
        rcases Bool.eq_false_or_eq_true (wordLt y.1 z.1) with hyz1 | hyz1
        · have := wordLt_trans y.1 z.1 x.1 hyz1 hw
          rw [this] at hw1
          cases hw1
        · have : y.1 = z.1 := wordLt_conn y.1 z.1 hyz1 hw2
          rw [← this] at hw
          rw [hw] at hw1
          cases hw1
      · exact absurd (lt_of_lt_of_le hlt (le_trans hzy2 hyx2)) (lt_irrefl x.2)

/-! ### `search_ranked`: assembly -/

theorem search_ranked_def (t : TrieNode) (q : Word) (limit : Nat) :
    search_ranked t q limit =
      (((collect_scored t [] [] q).mergeSort scoredLe).take
        (if limit = 0 then ((collect_scored t [] [] q).mergeSort scoredLe).length
         else min limit ((collect_scored t [] [] q).mergeSort scoredLe).length)).map
        Prod.fst := rfl

theorem entries_good (ws : List Word) (q : Word) :
    ∀ e ∈ collect_scored (buildTrie ws) [] [] q,
      Prod.snd e = score_word q e.1 (wordFreq (buildTrie ws) e.1) := by
  intro e he
  obtain ⟨w, sc⟩ := e
  rw [collect_scored_eq, List.nil_append] at he
  obtain ⟨su, m, hp, hterm, hw, hs⟩ :=
    scoredBelow_sound (buildTrie ws) (wf_buildTrie ws) [] q w sc he
  rw [List.nil_append] at hw
  subst hw
  show sc = score_word q w (wordFreq (buildTrie ws) w)
  rw [hs, wordFreq, hp]

theorem entries_map_fst (ws : List Word) (q : Word) :
    (collect_scored (buildTrie ws) [] [] q).map Prod.fst = wordsBelow (buildTrie ws) [] := by
  rw [collect_scored_eq, List.nil_append, scoredBelow_map_fst]

theorem mem_wordsBelow_root (ws : List Word) (w : Word) :
    w ∈ wordsBelow (buildTrie ws) [] ↔ w ∈ ws := by
  rw [mem_wordsBelow_iff (buildTrie ws) (wf_buildTrie ws) [] w]
  constructor
  · rintro ⟨s, hc, rfl⟩
    rw [contains_buildTrie] at hc
    simpa using hc
  · intro hmem
    refine ⟨w, ?_, by simp⟩
    rw [contains_buildTrie]
    simpa using hmem

/-- **C3.** `search_ranked` scores every stored terminal word `w` with
occurrence count `f` as `1/(1 + d) + |w|·0.02 + f·0.05`, sorts descending
by score with ties broken by ascending byte-lexicographic order of the
word, and returns the first `min(L, count)` words; `L = 0` returns the
full ranked list. -/
theorem search_ranked_spec (ws : List Word) (q : Word) (L : Nat) :
    (∀ w f, score_word q w f
        = 1 / (1 + (levenshtein_distance q w : ℚ))
          + (w.length : ℚ) * (2 / 100) + (f : ℚ) * (5 / 100)) ∧
    (∀ w, w ∈ search_ranked (buildTrie ws) q 0 ↔ w ∈ ws) ∧
    (search_ranked (buildTrie ws) q 0).Nodup ∧
    List.Pairwise (fun a b =>
      score_word q a (wordFreq (buildTrie ws) a)
          > score_word q b (wordFreq (buildTrie ws) b) ∨
      (score_word q a (wordFreq (buildTrie ws) a)
          = score_word q b (wordFreq (buildTrie ws) b) ∧ wordLt a b = true))
      (search_ranked (buildTrie ws) q 0) ∧
    (search_ranked (buildTrie ws) q 0).length = ws.dedup.length ∧
    (L ≠ 0 →
      search_ranked (buildTrie ws) q L = (search_ranked (buildTrie ws) q 0).take L ∧
      (search_ranked (buildTrie ws) q L).length = min L ws.dedup.length) := by
  set t := buildTrie ws with ht
  set entries := collect_scored t [] [] q with hentries
  set sorted := entries.mergeSort scoredLe with hsorted
  have hperm : sorted.Perm entries := List.mergeSort_perm entries scoredLe
  have hfst : entries.map Prod.fst = wordsBelow t [] := entries_map_fst ws q
  have hwordsnodup : (entries.map Prod.fst).Nodup := by
    rw [hfst]
    exact nodup_wordsBelow t (wf_buildTrie ws) []
  have hpermmap : (sorted.map Prod.fst).Perm (entries.map Prod.fst) := hperm.map Prod.fst
  have hsortednodup : (sorted.map Prod.fst).Nodup := hpermmap.nodup_iff.mpr hwordsnodup
  have hr0 : search_ranked t q 0 = sorted.map Prod.fst := by
    rw [search_ranked_def]
    simp
  have hmem0 : ∀ w, w ∈ search_ranked t q 0 ↔ w ∈ ws := by
    intro w
    rw [hr0, hpermmap.mem_iff, hfst, mem_wordsBelow_root]
  have hlen0 : (search_ranked t q 0).length = ws.dedup.length := by
    apply List.Perm.length_eq
    rw [List.perm_ext_iff_of_nodup (hr0 ▸ hsortednodup) (List.nodup_dedup ws)]
    intro w
    rw [hmem0, List.mem_dedup]
  refine ⟨fun w f => rfl, hmem0, hr0 ▸ hsortednodup, ?_, hlen0, ?_⟩
  · -- the ranking order
    have hpair : List.Pairwise (fun a b => scoredLe a b = true) sorted :=
      List.sorted_mergeSort scoredLe_trans
        (fun a b => scoredLe_total a b) entries
    have hnepair : List.Pairwise (fun a b : Word × ℚ => a.1 ≠ b.1) sorted :=
      List.pairwise_map.mp hsortednodup
    have hgood : ∀ e ∈ sorted, Prod.snd e = score_word q e.1 (wordFreq t e.1) :=
      fun e he => entries_good ws q e (hperm.mem_iff.mp he)
    have hcomb := hpair.and hnepair
    have himp : List.Pairwise (fun a b : Word × ℚ =>
        score_word q a.1 (wordFreq t a.1) > score_word q b.1 (wordFreq t b.1) ∨
        (score_word q a.1 (wordFreq t a.1) = score_word q b.1 (wordFreq t b.1) ∧
          wordLt a.1 b.1 = true)) sorted := by
      refine hcomb.imp_of_mem ?_
      intro a b ha hb hab
      obtain ⟨hle, hne⟩ := hab
      rw [scoredLe, Bool.not_eq_true'] at hle
      have hnb : ¬ ((b.2 = a.2 ∧ wordLt b.1 a.1 = true) ∨ (b.2 ≠ a.2 ∧ a.2 < b.2)) := by
        rw [← scoredBefore_iff]
        simp [hle]
      push_neg at hnb
      rw [← hgood a ha, ← hgood b hb]
      by_cases hsc : b.2 = a.2
      · right
        refine ⟨hsc.symm, ?_⟩
        have hw1 : wordLt b.1 a.1 = false := by
          cases hc : wordLt b.1 a.1 with
          | false => rfl
          | true => exact absurd hc (by simpa using hnb.1 hsc)
        rcases Bool.eq_false_or_eq_true (wordLt a.1 b.1) with h | h
        · exact h
        · exact absurd (wordLt_conn a.1 b.1 h hw1) hne
      · left
        have := hnb.2 hsc
        rcases lt_trichotomy a.2 b.2 with h | h | h
        · exact absurd h (not_lt.mpr this)
        · exact absurd h.symm hsc
        · exact h
    rw [hr0]
    exact List.pairwise_map.mpr himp
  · -- truncation for a nonzero limit
    intro hL
    have hlen : sorted.length = (search_ranked t q 0).length := by
      rw [hr0, List.length_map]
    have htrunc : search_ranked t q L = (search_ranked t q 0).take L := by
      rw [search_ranked_def, if_neg hL, hr0, ← List.map_take]
      congr 1
      by_cases hcmp : L ≤ sorted.length
      · rw [min_eq_left hcmp]
      · have h1 : sorted.length ≤ L := le_of_not_le hcmp
        rw [min_eq_right h1, List.take_of_length_le (le_refl _),
          List.take_of_length_le h1]
    refine ⟨htrunc, ?_⟩
    rw [htrunc, List.length_take, hlen0]

/-- Witness for `search_ranked_spec`: the truncation clause at a concrete
trie and nonzero limit. -/
theorem search_ranked_spec_witness :
    search_ranked (buildTrie [[0], [1]]) [0] 1
      = (search_ranked (buildTrie [[0], [1]]) [0] 0).take 1 ∧
    (search_ranked (buildTrie [[0], [1]]) [0] 1).length
      = min 1 ([[0], [1]].dedup).length := by
  exact (search_ranked_spec [[0], [1]] [0] 1).2.2.2.2.2 (by decide)

/-! ### The operation model: purity and the `thread_safe` flag -/

/-- **C9.** The three queries are pure: starting from any state between
operations (mutex free), `contains`, `suggest` and `search_ranked` return
the state exactly unchanged — no node added, no field modified. -/
theorem queries_pure (tr : Trie) (h : tr.locked = false) :
    (∀ w, (runOp tr (.containsOp w)).2 = tr) ∧
    (∀ pre limit, (runOp tr (.suggestOp pre limit)).2 = tr) ∧
    (∀ q limit, (runOp tr (.searchOp q limit)).2 = tr) := by
  obtain ⟨root, ts, lk⟩ := tr
  cases ts <;> simp_all [runOp]

/-- Witness for `queries_pure` at a concrete guarded trie. -/
theorem queries_pure_witness :
    (runOp ⟨emptyNode, true, false⟩ (.containsOp [0])).2 = ⟨emptyNode, true, false⟩ := by
  exact (queries_pure ⟨emptyNode, true, false⟩ rfl).1 [0]

theorem runOp_flag (r : TrieNode) (b : Bool) (op : Op) :
    (runOp ⟨r, b, false⟩ op).1 = (runOp ⟨r, false, false⟩ op).1 ∧
    (runOp ⟨r, b, false⟩ op).2
      = ⟨(runOp ⟨r, false, false⟩ op).2.root, b, false⟩ := by
  cases op <;> cases b <;> simp [runOp]

/-- **C10.** The `thread_safe` constructor flag has no observable effect
in sequential use: any sequence of API calls returns exactly the same
results, and builds exactly the same node store, whether the trie was
constructed with `thread_safe = true` or `false`; the flag only toggles
mutex acquisition around each operation. -/
theorem thread_safe_flag_transparent (ops : List Op) :
    (runOps (mkTrie true) ops).1 = (runOps (mkTrie false) ops).1 ∧
    (runOps (mkTrie true) ops).2.root = (runOps (mkTrie false) ops).2.root := by
  have main : ∀ (l : List Op) (r : TrieNode) (b : Bool),
      (runOps ⟨r, b, false⟩ l).1 = (runOps ⟨r, false, false⟩ l).1 ∧
      (runOps ⟨r, b, false⟩ l).2
        = ⟨(runOps ⟨r, false, false⟩ l).2.root, b, false⟩ := by
    intro l
    induction l with
    | nil => intro r b; exact ⟨rfl, rfl⟩
    | cons op ops ih =>
        intro r b
        have hop := runOp_flag r b op
        rw [runOps, runOps]
        have h2 := hop.2
        constructor
        · rw [hop.1]
          rw [h2]
          have hr := (ih (runOp ⟨r, false, false⟩ op).2.root b).1
          rw [hr]
          have : (runOp ⟨r, false, false⟩ op).2
              = ⟨(runOp ⟨r, false, false⟩ op).2.root, false, false⟩ := by
            have := (runOp_flag r false op).2
            simpa using this
          rw [← this]
        · rw [h2]
          have hr := (ih (runOp ⟨r, false, false⟩ op).2.root b).2
          rw [hr]
          have : (runOp ⟨r, false, false⟩ op).2
              = ⟨(runOp ⟨r, false, false⟩ op).2.root, false, false⟩ := by
            have := (runOp_flag r false op).2
            simpa using this
          rw [← this]
  constructor
  · rw [mkTrie, mkTrie]
    exact (main ops emptyNode true).1
  · rw [mkTrie, mkTrie, (main ops emptyNode true).2]

/-! ### Claim theorems (part 1) -/

/-- **C1.** After `insert(W)` the trie contains `W`; and `contains(V)`
holds exactly when `V` is among the inserted words, so a word never
inserted — including one that exists only as a proper-prefix path of an
inserted word — yields `false`. -/
theorem insert_contains_round_trip (ws : List Word) (W V : Word) :
    contains (insert (buildTrie ws) W) W = true ∧
    (contains (buildTrie ws) V = true ↔ V ∈ ws) := by
  refine ⟨?_, ?_⟩
  · simp [contains_insert]
  · simp [contains_buildTrie]

/-- **C4.** The edit distance satisfies: `distance(x,x) = 0`, symmetry,
non-negativity (it is a `Nat`), and `distance("", x) = length x`. -/
theorem levenshtein_identities (x y : Word) :
    levenshtein_distance x x = 0 ∧
    levenshtein_distance x y = levenshtein_distance y x ∧
    0 ≤ levenshtein_distance x y ∧
    levenshtein_distance [] x = x.length := by
  refine ⟨levenshtein_self x, levenshtein_comm x y, Nat.zero_le _, ?_⟩
  rw [levenshtein_distance]
  simp

end TrieSpec
